import Mathlib

set_option maxHeartbeats 2000000
set_option maxRecDepth 100000
set_option exponentiation.threshold 2000

namespace PrecoTenis

/-!  Shallow embedding of `src/app.py` (repository preco-tenis-dinamico).

Strings are handled as lists of characters (`String.data`).  The Python
library primitives used by the source (`str.strip`, `str.lower`,
`unidecode.unidecode`, `str.split`, `str.replace`, `float`, `round`,
`int`, `dict`) are modelled explicitly below; the scope of each model is
stated in its doc comment.  Machine floats are idealised as rationals. -/

/-- Model of the Python whitespace test used by `str.strip` and
`str.split()`, restricted to the six ASCII whitespace characters
(space, tab, newline, carriage return, vertical tab, form feed). -/
def isSpC (c : Char) : Bool :=
  c == ' ' || c == '\t' || c == '\n' || c == '\r' || c == '\x0b' || c == '\x0c'

/-- Model of Python `str.lower`, as a character table: the 26 ASCII
uppercase letters and the uppercase accented Latin-1 letters map to
their lowercase partners; every other character is unchanged. -/
def lowerTable : List (Char × Char) :=
  [('A', 'a'), ('B', 'b'), ('C', 'c'), ('D', 'd'), ('E', 'e'), ('F', 'f'),
   ('G', 'g'), ('H', 'h'), ('I', 'i'), ('J', 'j'), ('K', 'k'), ('L', 'l'),
   ('M', 'm'), ('N', 'n'), ('O', 'o'), ('P', 'p'), ('Q', 'q'), ('R', 'r'),
   ('S', 's'), ('T', 't'), ('U', 'u'), ('V', 'v'), ('W', 'w'), ('X', 'x'),
   ('Y', 'y'), ('Z', 'z'),
   ('Á', 'á'), ('À', 'à'), ('Â', 'â'), ('Ã', 'ã'), ('Ä', 'ä'), ('Å', 'å'),
   ('Ç', 'ç'), ('É', 'é'), ('È', 'è'), ('Ê', 'ê'), ('Ë', 'ë'),
   ('Í', 'í'), ('Ì', 'ì'), ('Î', 'î'), ('Ï', 'ï'), ('Ñ', 'ñ'),
   ('Ó', 'ó'), ('Ò', 'ò'), ('Ô', 'ô'), ('Õ', 'õ'), ('Ö', 'ö'),
   ('Ú', 'ú'), ('Ù', 'ù'), ('Û', 'û'), ('Ü', 'ü'), ('Ý', 'ý')]

def lowerChar (c : Char) : Char :=
  match lowerTable.lookup c with
  | some d => d
  | none => c

/-- Model of `unidecode.unidecode`, character-wise, covering the code
points the catalog and queries of this service use: ASCII characters are
unchanged, accented lowercase Latin-1 letters map to their unaccented
base letter, and any other character is dropped (transliterated to the
empty string). -/
def accentTable : List (Char × List Char) :=
  [('á', ['a']), ('à', ['a']), ('â', ['a']), ('ã', ['a']), ('ä', ['a']),
   ('å', ['a']), ('ç', ['c']), ('é', ['e']), ('è', ['e']), ('ê', ['e']),
   ('ë', ['e']), ('í', ['i']), ('ì', ['i']), ('î', ['i']), ('ï', ['i']),
   ('ñ', ['n']), ('ó', ['o']), ('ò', ['o']), ('ô', ['o']), ('õ', ['o']),
   ('ö', ['o']), ('ú', ['u']), ('ù', ['u']), ('û', ['u']), ('ü', ['u']),
   ('ý', ['y']), ('ÿ', ['y']), ('ß', ['s', 's'])]

def unidecodeChar (c : Char) : List Char :=
  if c.toNat < 128 then [c]
  else
    match accentTable.lookup c with
    | some out => out
    | none => []

/-- Replacement of a hyphen by a space, the character map of
`t.replace("-", " ")` in `norm` (line 31 of app.py). -/
def hyph (c : Char) : Char := if c == '-' then ' ' else c

/-- Model of Python `str.strip()` on a character list. -/
def stripL (l : List Char) : List Char :=
  ((l.dropWhile isSpC).reverse.dropWhile isSpC).reverse

def splitWordsAux : List Char → List Char → List (List Char)
  | [], acc => if acc.isEmpty then [] else [acc.reverse]
  | c :: rest, acc =>
    if isSpC c then
      if acc.isEmpty then splitWordsAux rest []
      else acc.reverse :: splitWordsAux rest []
    else splitWordsAux rest (c :: acc)

/-- Model of Python `str.split()` (no argument): split on runs of
whitespace, ignoring leading and trailing whitespace. -/
def splitWords (l : List Char) : List (List Char) := splitWordsAux l []

/-- Model of `" ".join(words)`. -/
def joinWords : List (List Char) → List Char
  | [] => []
  | [w] => w
  | w :: ws => w ++ ' ' :: joinWords ws

/-- Character-wise lowering, stage `.lower()` of `norm` (line 30). -/
def lowerL (l : List Char) : List Char := l.map lowerChar

/-- String-level unidecode (character-wise concatenation), stage
`unidecode.unidecode(...)` of `norm` (line 30). -/
def unidecodeL : List Char → List Char
  | [] => []
  | c :: rest => unidecodeChar c ++ unidecodeL rest

/-- Stage `t.replace("-", " ")` of `norm` (line 31). -/
def hyphL (l : List Char) : List Char := l.map hyph

/-- The character pipeline of `norm` after stripping: lower, then
unidecode, then hyphen-to-space. -/
def pipeL (l : List Char) : List Char := hyphL (unidecodeL (lowerL l))

/-- The same pipeline on a single character. -/
def pipeChar (c : Char) : List Char := (unidecodeChar (lowerChar c)).map hyph

/-- Embedding of `norm` (app.py lines 22-33) on character lists:
strip, lowercase, unidecode, hyphen to space, collapse whitespace. -/
def normL (l : List Char) : List Char :=
  joinWords (splitWords (pipeL (stripL l)))

/-- Embedding of `norm` (app.py lines 22-33). -/
def norm (txt : String) : String := String.mk (normL txt.data)

/-- The elementary differences the specification allows between two
spellings of one material name: lowercasing one letter, removing one
diacritic (a character transliterating to a single base character), a
hyphen for a space, one whitespace character for another, duplicating a
whitespace character, and whitespace at either end.  Two names "differ
only in case, diacritics, hyphen versus space, or whitespace runs"
exactly when the equivalence closure of these steps relates them. -/
inductive SimStep : List Char → List Char → Prop where
  | lower (a b : List Char) (c : Char) : SimStep (a ++ c :: b) (a ++ lowerChar c :: b)
  | deaccent (a b : List Char) (c d : Char) (h : unidecodeChar c = [d]) :
      SimStep (a ++ c :: b) (a ++ d :: b)
  | hyphSpace (a b : List Char) : SimStep (a ++ '-' :: b) (a ++ ' ' :: b)
  | wsSubst (a b : List Char) (s t : Char) (hs : isSpC s = true) (ht : isSpC t = true) :
      SimStep (a ++ s :: b) (a ++ t :: b)
  | wsDup (a b : List Char) (s : Char) (hs : isSpC s = true) :
      SimStep (a ++ s :: b) (a ++ s :: s :: b)
  | wsLead (l : List Char) (s : Char) (hs : isSpC s = true) : SimStep l (s :: l)
  | wsTrail (l : List Char) (s : Char) (hs : isSpC s = true) : SimStep l (l ++ [s])


/-- Model of Python `abs` on numbers (idealised as rationals). -/
def pyAbs (q : ℚ) : ℚ := if q < 0 then -q else q

/-- Embedding of `arredonda_para_terminar_em_7` (app.py lines 39-64),
with the float argument idealised as a rational.  Python `math.floor`
is `Int.floor` and Python integer `//` is flooring division
(`Int.fdiv`). -/
def arredonda_para_terminar_em_7 (valor : ℚ) : ℤ :=
  let lower7a : ℤ := (Int.fdiv ⌊valor⌋ 10) * 10 + 7
  let lower7 : ℤ := if (lower7a : ℚ) > valor then lower7a - 10 else lower7a
  let upper7 : ℤ := lower7 + 10
  let dist_lower : ℚ := pyAbs (valor - (lower7 : ℚ))
  let dist_upper : ℚ := pyAbs ((upper7 : ℚ) - valor)
  if dist_lower < dist_upper then lower7
  else if dist_upper < dist_lower then upper7
  else upper7


/-- Embedding of `preco_media_simples` (app.py lines 127-129): the sum
divided by `max(len(precos), 1)`, then terminal-digit-7 rounding. -/
def preco_media_simples (precos : List ℤ) : ℤ :=
  let bruto : ℚ := (precos.sum : ℚ) / (max precos.length 1 : ℚ)
  arredonda_para_terminar_em_7 bruto


/-- Model of Python `round` to an integer: round half to even. -/
def pyRound (q : ℚ) : ℤ :=
  let f : ℤ := ⌊q⌋
  let r : ℚ := q - (f : ℚ)
  if r < 1 / 2 then f
  else if 1 / 2 < r then f + 1
  else if f % 2 = 0 then f else f + 1

def digitVal (c : Char) : ℕ := c.toNat - '0'.toNat

/-- Value of a digit string, as Python `int` reads it (leading zeros
allowed). -/
def digitsToNat (l : List Char) : ℕ := l.foldl (fun n c => n * 10 + digitVal c) 0

def spanDigits (l : List Char) : List Char × List Char :=
  (l.takeWhile Char.isDigit, l.dropWhile Char.isDigit)

/-- Optional leading sign of a numeric literal; `true` means negative. -/
def parseSign : List Char → Bool × List Char
  | [] => (false, [])
  | c :: rest =>
    if c == '+' then (false, rest)
    else if c == '-' then (true, rest)
    else (false, c :: rest)

/-- Exponent suffix of a float literal: empty, or e/E, optional sign and
digits, consuming the whole remainder. -/
def parseExp : List Char → Option (Bool × ℕ)
  | [] => some (false, 0)
  | c :: rest =>
    if c == 'e' || c == 'E' then
      let sr := parseSign rest
      let dr := spanDigits sr.2
      if dr.1.isEmpty || !dr.2.isEmpty then none
      else some (sr.1, digitsToNat dr.1)
    else none

/-- Mantissa of a float literal: digits, optionally with a decimal point
on either side; at least one digit overall. -/
def parseMantissa (l : List Char) : Option (ℚ × List Char) :=
  let ir := spanDigits l
  match ir.2 with
  | c :: r2 =>
    if c == '.' then
      let fr := spanDigits r2
      if ir.1.isEmpty && fr.1.isEmpty then none
      else some ((digitsToNat ir.1 : ℚ) + (digitsToNat fr.1 : ℚ) / (10 : ℚ) ^ fr.1.length, fr.2)
    else if ir.1.isEmpty then none else some ((digitsToNat ir.1 : ℚ), ir.2)
  | [] => if ir.1.isEmpty then none else some ((digitsToNat ir.1 : ℚ), ir.2)

/-- Model of Python `float(s)` restricted to finite decimal literals:
surrounding whitespace, an optional sign, decimal digits with an
optional point, and an optional decimal exponent.  Special values
(`inf`, `nan`), underscores in literals and non-ASCII digits are not
modelled: they yield `none`, as does any malformed literal. -/
def pyFloatQ? (l : List Char) : Option ℚ :=
  let l1 := stripL l
  let sr := parseSign l1
  match parseMantissa sr.2 with
  | none => none
  | some (m, rest) =>
    match parseExp rest with
    | none => none
    | some (eneg, e) =>
      let v : ℚ := if eneg then m / (10 : ℚ) ^ e else m * (10 : ℚ) ^ e
      some (if sr.1 then -v else v)

/-- The try-block of app.py lines 93-94, `int(round(float(s)))`, as an
optional value: `none` models the raised-and-caught exception (a
malformed literal, or a literal whose magnitude overflows the float
range so that `round` raises `OverflowError`). -/
def floatMaxN : ℕ := 2 ^ 1024

def int_round_float? (s : List Char) : Option ℤ :=
  match pyFloatQ? s with
  | none => none
  | some q => if (floatMaxN : ℚ) ≤ pyAbs q then none else some (pyRound q)

/-- Removal of every occurrence of the two-character pattern `R$`,
scanning left to right: the step `.replace("R$", "")` of line 92. -/
def removeRS : List Char → List Char
  | [] => []
  | [c] => [c]
  | c :: d :: rest =>
    if c == 'R' && d == '$' then removeRS rest
    else c :: removeRS (d :: rest)

/-- The cleaning chain of line 92:
strip `R$`, drop every `.`, drop every space, then turn `,` into `.`
(single-character replacements are character filters / maps). -/
def cleanPriceL (l : List Char) : List Char :=
  ((((removeRS l).filter (fun c => !(c == '.'))).filter
      (fun c => !(c == ' '))).map (fun c => if c == ',' then '.' else c))

/-- Price of one row, app.py lines 92-100: try the cleaned literal as a
number; on failure fall back to the digit characters of the raw string
(Python `str.isdigit` is modelled as the ASCII digit test), skipping the
row (`none`) only when there is no digit at all. -/
def rowPrice (preco_raw : List Char) : Option ℤ :=
  match int_round_float? (cleanPriceL preco_raw) with
  | some n => some n
  | none =>
    let digs := preco_raw.filter Char.isDigit
    if digs.isEmpty then none
    else some (digitsToNat digs : ℤ)


/-- One CSV data row as `csv.DictReader` hands it to the loop of
app.py line 85: the possible values of the four recognised columns, where `precoAcc`
stands for the accented column name "preço" (a column missing from the
file reads as `none`). -/
structure Row where
  materiais : Option String
  material : Option String
  preco : Option String
  precoAcc : Option String

/-- Model of `opt or fallback` on Python strings: the empty string and a
missing value are falsy. -/
def orGet (a : Option String) (b : String) : String :=
  match a with
  | some s => if s.isEmpty then b else s
  | none => b

/-- One catalog value: canonical display name and integer unit price. -/
structure Entry where
  nome : String
  preco : ℤ
deriving DecidableEq

/-- The in-memory catalog `PRECOS` (app.py line 70): a Python dict from
normalized key to `(nome_canonico, preco_int)`, modelled as an
association list with insertion-order keys and in-place overwrite. -/
abbrev Catalog := List (String × Entry)

def dictInsert : Catalog → String → Entry → Catalog
  | [], k, v => [(k, v)]
  | (k2, v2) :: rest, k, v =>
    if k2 == k then (k, v) :: rest else (k2, v2) :: dictInsert rest k v

def dictGet? : Catalog → String → Option Entry
  | [], _ => none
  | (k2, v2) :: rest, k => if k2 == k then some v2 else dictGet? rest k

instance {ε α : Type} [DecidableEq ε] [DecidableEq α] : DecidableEq (Except ε α) := fun x y =>
  match x, y with
  | .ok a, .ok b => if h : a = b then isTrue (by rw [h]) else isFalse (by simp [h])
  | .error a, .error b => if h : a = b then isTrue (by rw [h]) else isFalse (by simp [h])
  | .ok _, .error _ => isFalse (by simp)
  | .error _, .ok _ => isFalse (by simp)

/-- Model of Python `str.strip()`. -/
def pyStripS (s : String) : String := String.mk (stripL s.data)

/-- The body of the row loop, app.py lines 86-106: the key/value pair a
row contributes, or `none` when the row is skipped (blank name or
price, unparseable digit-free price, or a name normalizing to the empty
key). -/
def rowEntry (row : Row) : Option (String × Entry) :=
  let nome := pyStripS (orGet row.materiais (orGet row.material ""))
  let preco_raw := pyStripS (orGet row.preco (orGet row.precoAcc ""))
  if nome.isEmpty || preco_raw.isEmpty then none
  else
    match rowPrice preco_raw.data with
    | none => none
    | some preco_num =>
      let chave := norm nome
      if chave.isEmpty then none
      else some (chave, ⟨nome, preco_num⟩)

def rowStep (d : Catalog) (row : Row) : Catalog :=
  match rowEntry row with
  | none => d
  | some (k, v) => dictInsert d k v

/-- The dict `precos_tmp` built by the loop of app.py lines 84-106. -/
def precosTmp (rows : List Row) : Catalog := rows.foldl rowStep []

def msgNoUrl : String :=
  "Variável de ambiente FONTE_MATERIAIS_CSV_URL não configurada."

def msgEmptyCsv : String :=
  "Nenhuma linha válida encontrada no CSV (colunas esperadas: \x27materiais\x27 e \x27preco\x27)."

/-- Embedding of `carregar_precos_do_csv` (app.py lines 72-111) over the
global `PRECOS`, as a stateful, fallible computation.  The network is an
input: `fetch` is either the parsed row list of the downloaded CSV or
the message of the request/HTTP error `requests` raised.  The global
assignment `PRECOS = precos_tmp` (line 111) is the single `set`, placed
after every raise, exactly as in the source. -/
def carregar_precos_do_csv (csv_url : Option String)
    (fetch : Except String (List Row)) : ExceptT String (StateM Catalog) Unit := do
  if (orGet csv_url "").isEmpty then
    throw msgNoUrl
  match fetch with
  | .error e => throw e
  | .ok rows =>
    let tmp := precosTmp rows
    if tmp.isEmpty then
      throw msgEmptyCsv
    set tmp

/-- One run of `carregar_precos_do_csv` from a given catalog state:
the outcome observed by the caller, and the new state. -/
def runCarregar (csv_url : Option String) (fetch : Except String (List Row))
    (precos : Catalog) : Except String Unit × Catalog :=
  ((carregar_precos_do_csv csv_url fetch).run).run precos

/-- Embedding of `garantir_precos` (app.py lines 119-122).  The final
boolean records whether a catalog load was attempted (the temporal
observation: `carregar_precos_do_csv` runs only when the cache is
empty). -/
def garantir_precos (precos : Catalog) (url : Option String)
    (fetch : Except String (List Row)) : Except String Unit × Catalog × Bool :=
  if precos.isEmpty then
    let r := runCarregar url fetch precos
    (r.1, r.2, true)
  else (.ok (), precos, false)

/-- The rule registry `REGRAS` (app.py lines 131-134), keys only: the
single registered rule dispatches to `preco_media_simples`. -/
def REGRAS : List String := ["media_simples"]

/-- The sorted set of canonical names,
`sorted(set(canon for (canon, _) in PRECOS.values()))`
(app.py line 207): deduplicate, then sort ascending. -/
def insertSorted (s : String) : List String → List String
  | [] => [s]
  | t :: ts => if s ≤ t then s :: t :: ts else t :: insertSorted s ts

def sortStr (l : List String) : List String := l.foldr insertSorted []

def sugestoesOf (precos : Catalog) : List String :=
  sortStr ((precos.map (fun kv => kv.2.nome)).dedup)

/-- Model of Python `qs.split(",")`: split on every comma, keeping empty
segments. -/
def splitCommaL : List Char → List (List Char)
  | [] => [[]]
  | c :: rest =>
    if c == ',' then [] :: splitCommaL rest
    else
      match splitCommaL rest with
      | s :: ss => (c :: s) :: ss
      | [] => [[c]]

/-- The request list `pedidos` (app.py line 189): split on commas, strip
each token, drop the blank ones, keeping order and duplicates. -/
def pedidosOf (qs : String) : List String :=
  (((splitCommaL qs.data).map stripL).filter (fun l => !l.isEmpty)).map String.mk

/-- One step of the resolution loop of app.py lines 197-204, carrying
`(itens_precificados, precos_encontrados, nao_encontrados)`. -/
def resolveStep (precos : Catalog)
    (acc : List (String × ℤ) × List ℤ × List String) (m : String) :
    List (String × ℤ) × List ℤ × List String :=
  match dictGet? precos (norm m) with
  | some e => (acc.1 ++ [(e.nome, e.preco)], acc.2.1 ++ [e.preco], acc.2.2)
  | none => (acc.1, acc.2.1, acc.2.2 ++ [m])

def resolver (precos : Catalog) (pedidos : List String) :
    List (String × ℤ) × List ℤ × List String :=
  pedidos.foldl (resolveStep precos) ([], [], [])

/-- The distinct responses of the `/preco` handler: the 500 catalog
error, the three 400 validation errors (missing parameter, unknown
rule, no material), the 400 unknown-materials error with its
remediation payload, and the 200 priced result. -/
inductive PrecoResp where
  | erro500 (msg : String)
  | erroMateriaisObrigatorio
  | erroRegraInvalida
  | erroNenhumMaterial
  | erroDesconhecidos (naoEncontrados : List String) (sugestoes : List String)
  | ok (materiais : List String) (itens : List (String × ℤ)) (preco : ℤ) (regra : String)
deriving DecidableEq

/-- The query-string parameters of one `/preco` request. -/
structure PrecoQuery where
  materiais : Option String
  regra : Option String

/-- Model of Python `s or dflt` on strings. -/
def strOr (s : String) (dflt : String) : String := if s.isEmpty then dflt else s

/-- Embedding of the `/preco` handler (app.py lines 169-221): ensure the
catalog (first!), read and validate the parameters, resolve the
requested names, and either fail as a unit or price the list.  Returns
the response, the catalog state after the request, and whether a
catalog load was attempted. -/
def preco_endpoint (precos : Catalog) (url : Option String)
    (fetch : Except String (List Row)) (q : PrecoQuery) :
    PrecoResp × Catalog × Bool :=
  let g := garantir_precos precos url fetch
  match g.1 with
  | .error e => (.erro500 e, g.2.1, g.2.2)
  | .ok _ =>
    let precos2 := g.2.1
    let materias_qs := pyStripS (q.materiais.getD "")
    let regra := pyStripS (strOr (q.regra.getD "media_simples") "media_simples")
    if materias_qs.isEmpty then (.erroMateriaisObrigatorio, precos2, g.2.2)
    else if !(REGRAS.contains regra) then (.erroRegraInvalida, precos2, g.2.2)
    else
      let pedidos := pedidosOf materias_qs
      if pedidos.isEmpty then (.erroNenhumMaterial, precos2, g.2.2)
      else
        let r := resolver precos2 pedidos
        if !r.2.2.isEmpty then
          (.erroDesconhecidos r.2.2 (sugestoesOf precos2), precos2, g.2.2)
        else
          (.ok (r.1.map Prod.fst) r.1 (preco_media_simples r.2.1) regra, precos2, g.2.2)

/-- Embedding of the `/reload` handler (app.py lines 161-167): always
attempt a load; on success answer with the catalog size, on failure
with the error message; the state is whatever the load left behind. -/
def reload_endpoint (precos : Catalog) (url : Option String)
    (fetch : Except String (List Row)) : Except String ℕ × Catalog :=
  let r := runCarregar url fetch precos
  match r.1 with
  | .ok _ => (.ok r.2.length, r.2)
  | .error e => (.error e, r.2)

/-- The key/value pairs the rows contribute, in row order (the rows the
loop accepts). -/
def acceptedEntries (rows : List Row) : List (String × Entry) := rows.filterMap rowEntry

/-- Modelled from the spec: the rounding mode the specification ascribes
to price parsing, round to nearest integer with ties rounded half UP.
It is not in the source; it is stated here only to be compared with the
rounding the code performs (`pyRound`, half to even). -/
def roundHalfUp (q : ℚ) : ℤ := ⌊q + 1 / 2⌋

end PrecoTenis

namespace PrecoTenis

/-! Theorems.  Shared helper lemmas come first, then one theorem per
claim (with its witness or counterexample where required). -/

theorem pyAbs_eq_abs (q : ℚ) : pyAbs q = |q| := by
  unfold pyAbs
  rcases lt_or_ge q 0 with h | h
  · rw [if_pos h, abs_of_neg h]
  · rw [if_neg (not_lt.mpr h), abs_of_nonneg h]

lemma choose7_spec (v : ℚ) (L : ℤ) (h7 : L % 10 = 7) (hle : (L : ℚ) ≤ v)
    (hlt : v < (L : ℚ) + 10) :
    (if pyAbs (v - (L : ℚ)) < pyAbs (((L + 10 : ℤ) : ℚ) - v) then L else L + 10) % 10 = 7 ∧
    ∀ m : ℤ, m % 10 = 7 →
      |v - ((if pyAbs (v - (L : ℚ)) < pyAbs (((L + 10 : ℤ) : ℚ) - v) then L else L + 10 : ℤ) : ℚ)| < |v - (m : ℚ)| ∨
      (|v - ((if pyAbs (v - (L : ℚ)) < pyAbs (((L + 10 : ℤ) : ℚ) - v) then L else L + 10 : ℤ) : ℚ)| = |v - (m : ℚ)| ∧
        m ≤ (if pyAbs (v - (L : ℚ)) < pyAbs (((L + 10 : ℤ) : ℚ) - v) then L else L + 10)) := by
  have habsL : |v - (L : ℚ)| = v - (L : ℚ) := abs_of_nonneg (by linarith)
  have habsU : |v - ((L + 10 : ℤ) : ℚ)| = (L : ℚ) + 10 - v := by
    rw [abs_sub_comm]
    push_cast
    exact abs_of_nonneg (by linarith)
  by_cases hc : pyAbs (v - (L : ℚ)) < pyAbs (((L + 10 : ℤ) : ℚ) - v)
  · rw [if_pos hc]
    have hc2 : v - (L : ℚ) < (L : ℚ) + 10 - v := by
      rw [pyAbs_eq_abs, pyAbs_eq_abs, habsL] at hc
      rw [abs_sub_comm] at habsU
      push_cast at hc ⊢
      rw [show |(L : ℚ) + 10 - v| = |v - ((L : ℚ) + 10)| from (abs_sub_comm _ _)] at hc
      have : |v - ((L : ℚ) + 10)| = (L : ℚ) + 10 - v := by
        rw [abs_sub_comm]; exact abs_of_nonneg (by linarith)
      linarith [this ▸ hc]
    refine ⟨h7, ?_⟩
    intro m hm
    have hcases : m ≤ L ∨ L + 10 ≤ m := by omega
    rcases hcases with hml | hmu
    · rcases eq_or_lt_of_le hml with heq | hlt2
      · right; rw [heq]; exact ⟨rfl, le_refl _⟩
      · left
        have hm10 : m ≤ L - 10 := by omega
        have hmc : (m : ℚ) ≤ (L : ℚ) - 10 := by exact_mod_cast hm10
        have habsm : |v - (m : ℚ)| = v - (m : ℚ) := abs_of_nonneg (by linarith)
        rw [habsL, habsm]; linarith
    · left
      have hmc : ((L : ℚ) + 10) ≤ (m : ℚ) := by exact_mod_cast hmu
      have habsm : |v - (m : ℚ)| = (m : ℚ) - v := by
        rw [abs_sub_comm]; exact abs_of_nonneg (by linarith)
      rw [habsL, habsm]; linarith
  · rw [if_neg hc]
    have hc2 : (L : ℚ) + 10 - v ≤ v - (L : ℚ) := by
      rw [pyAbs_eq_abs, pyAbs_eq_abs, habsL] at hc
      push_neg at hc
      have : |((L : ℚ) + 10 : ℚ) - v| = (L : ℚ) + 10 - v := abs_of_nonneg (by linarith)
      push_cast at hc
      linarith [this ▸ hc]
    have habsr : |v - ((L + 10 : ℤ) : ℚ)| = (L : ℚ) + 10 - v := habsU
    refine ⟨by omega, ?_⟩
    intro m hm
    have hcases : m ≤ L ∨ L + 10 ≤ m := by omega
    rcases hcases with hml | hmu
    · have hmc : (m : ℚ) ≤ (L : ℚ) := by exact_mod_cast hml
      have habsm : |v - (m : ℚ)| = v - (m : ℚ) := abs_of_nonneg (by linarith)
      have hch : |v - ((L + 10 : ℤ) : ℚ)| ≤ |v - (m : ℚ)| := by
        rw [habsr, habsm]; linarith
      rcases lt_or_eq_of_le hch with hlt3 | heq3
      · left; exact hlt3
      · right; exact ⟨heq3, by omega⟩
    · rcases eq_or_lt_of_le hmu with heq | hlt2
      · right; rw [← heq]; exact ⟨rfl, by omega⟩
      · left
        have hm10 : L + 20 ≤ m := by omega
        have hmc : (L : ℚ) + 20 ≤ (m : ℚ) := by exact_mod_cast hm10
        have habsm : |v - (m : ℚ)| = (m : ℚ) - v := by
          rw [abs_sub_comm]; exact abs_of_nonneg (by linarith)
        rw [habsr, habsm]; linarith

lemma arredonda_spec (v : ℚ) :
    (arredonda_para_terminar_em_7 v) % 10 = 7 ∧ ∀ m : ℤ, m % 10 = 7 →
      |v - (arredonda_para_terminar_em_7 v : ℚ)| < |v - (m : ℚ)| ∨
      (|v - (arredonda_para_terminar_em_7 v : ℚ)| = |v - (m : ℚ)| ∧
        m ≤ arredonda_para_terminar_em_7 v) := by
  have hfd : Int.fdiv ⌊v⌋ 10 = ⌊v⌋ / 10 := Int.fdiv_eq_ediv _ (by norm_num)
  have hfloor_le : ((⌊v⌋ : ℤ) : ℚ) ≤ v := Int.floor_le v
  have hlt1 : v < ((⌊v⌋ : ℤ) : ℚ) + 1 := by
    have := Int.lt_floor_add_one v
    push_cast at this ⊢
    linarith
  have hmod : ⌊v⌋ % 10 + 10 * (⌊v⌋ / 10) = ⌊v⌋ := Int.emod_add_ediv ⌊v⌋ 10
  have hr1 : 0 ≤ ⌊v⌋ % 10 := Int.emod_nonneg ⌊v⌋ (by norm_num)
  have hr2 : ⌊v⌋ % 10 < 10 := Int.emod_lt_of_pos ⌊v⌋ (by norm_num)
  have hL0le : ((Int.fdiv ⌊v⌋ 10 * 10 + 7 : ℤ) : ℚ) ≤ v + 7 := by
    have h1 : Int.fdiv ⌊v⌋ 10 * 10 + 7 ≤ ⌊v⌋ + 7 := by omega
    have h2 : ((Int.fdiv ⌊v⌋ 10 * 10 + 7 : ℤ) : ℚ) ≤ ((⌊v⌋ : ℤ) : ℚ) + 7 := by
      exact_mod_cast h1
    linarith
  have hL0gt : v < ((Int.fdiv ⌊v⌋ 10 * 10 + 7 : ℤ) : ℚ) + 3 := by
    have h1 : ⌊v⌋ ≤ Int.fdiv ⌊v⌋ 10 * 10 + 7 + 2 := by omega
    have h2 : ((⌊v⌋ : ℤ) : ℚ) ≤ ((Int.fdiv ⌊v⌋ 10 * 10 + 7 : ℤ) : ℚ) + 2 := by
      exact_mod_cast h1
    linarith
  have hmod7 : (Int.fdiv ⌊v⌋ 10 * 10 + 7) % 10 = 7 := by omega
  by_cases hcond : ((Int.fdiv ⌊v⌋ 10 * 10 + 7 : ℤ) : ℚ) > v
  · have heq : arredonda_para_terminar_em_7 v =
        if pyAbs (v - ((Int.fdiv ⌊v⌋ 10 * 10 + 7 - 10 : ℤ) : ℚ)) <
            pyAbs (((Int.fdiv ⌊v⌋ 10 * 10 + 7 - 10 + 10 : ℤ) : ℚ) - v)
        then Int.fdiv ⌊v⌋ 10 * 10 + 7 - 10
        else Int.fdiv ⌊v⌋ 10 * 10 + 7 - 10 + 10 := by
      simp only [arredonda_para_terminar_em_7]
      rw [if_pos hcond]
      simp only [ite_self]
    rw [heq]
    have h7 : (Int.fdiv ⌊v⌋ 10 * 10 + 7 - 10) % 10 = 7 := by omega
    have hle2 : ((Int.fdiv ⌊v⌋ 10 * 10 + 7 - 10 : ℤ) : ℚ) ≤ v := by
      push_cast
      push_cast at hL0le
      linarith
    have hlt2 : v < ((Int.fdiv ⌊v⌋ 10 * 10 + 7 - 10 : ℤ) : ℚ) + 10 := by
      push_cast
      push_cast at hcond
      linarith
    exact choose7_spec v (Int.fdiv ⌊v⌋ 10 * 10 + 7 - 10) h7 hle2 hlt2
  · have heq : arredonda_para_terminar_em_7 v =
        if pyAbs (v - ((Int.fdiv ⌊v⌋ 10 * 10 + 7 : ℤ) : ℚ)) <
            pyAbs (((Int.fdiv ⌊v⌋ 10 * 10 + 7 + 10 : ℤ) : ℚ) - v)
        then Int.fdiv ⌊v⌋ 10 * 10 + 7
        else Int.fdiv ⌊v⌋ 10 * 10 + 7 + 10 := by
      simp only [arredonda_para_terminar_em_7]
      rw [if_neg hcond]
      simp only [ite_self]
    rw [heq]
    push_neg at hcond
    have hlt2 : v < ((Int.fdiv ⌊v⌋ 10 * 10 + 7 : ℤ) : ℚ) + 10 := by linarith
    exact choose7_spec v (Int.fdiv ⌊v⌋ 10 * 10 + 7) hmod7 hcond hlt2

/-- C1: for every real input, `arredonda_para_terminar_em_7` returns the
integer congruent to 7 modulo 10 nearest to the input (on an exact tie,
the upper candidate: any other candidate at the same distance lies
below the result), and in particular it maps 2764 to 2767, 2768 to
2767, 15.2 to 17, and the exact midpoint 12.0 to 17. -/
theorem c1_arredonda_nearest_7 :
    (∀ v : ℚ, (arredonda_para_terminar_em_7 v) % 10 = 7 ∧
      ∀ m : ℤ, m % 10 = 7 →
        |v - (arredonda_para_terminar_em_7 v : ℚ)| < |v - (m : ℚ)| ∨
        (|v - (arredonda_para_terminar_em_7 v : ℚ)| = |v - (m : ℚ)| ∧
          m ≤ arredonda_para_terminar_em_7 v)) ∧
    arredonda_para_terminar_em_7 2764 = 2767 ∧
    arredonda_para_terminar_em_7 2768 = 2767 ∧
    arredonda_para_terminar_em_7 (152 / 10) = 17 ∧
    arredonda_para_terminar_em_7 12 = 17 :=
  ⟨arredonda_spec, by with_unfolding_all decide, by with_unfolding_all decide,
    by with_unfolding_all decide, by with_unfolding_all decide⟩

/-- Witness for C1: the universal part applied at the tie input 12 and
the candidate 7, whose hypothesis 7 % 10 = 7 is discharged
concretely. -/
theorem c1_arredonda_nearest_7_witness :
    |(12 : ℚ) - (arredonda_para_terminar_em_7 12 : ℚ)| < |(12 : ℚ) - ((7 : ℤ) : ℚ)| ∨
    (|(12 : ℚ) - (arredonda_para_terminar_em_7 12 : ℚ)| = |(12 : ℚ) - ((7 : ℤ) : ℚ)| ∧
      (7 : ℤ) ≤ arredonda_para_terminar_em_7 12) :=
  (c1_arredonda_nearest_7.1 12).2 7 (by decide)

/-- C2 counterexample: `media_simples` on `[100, 200, 300]` returns
197, not 200, because `preco_media_simples` rounds the mean with
`arredonda_para_terminar_em_7`. -/
theorem c2_counterexample :
    preco_media_simples [100, 200, 300] ≠ 200 := by
  with_unfolding_all decide

/-- C2 (amended): `media_simples` on `[100, 200, 300]` computes the
arithmetic mean 200 and returns it rounded to the nearest integer
ending in digit 7, namely 197. -/
theorem c2_media_simples_100_200_300 :
    preco_media_simples [100, 200, 300] = 197 ∧
    (([100, 200, 300] : List ℤ).sum : ℚ) / (max ([100, 200, 300] : List ℤ).length 1 : ℚ) = 200 ∧
    arredonda_para_terminar_em_7 200 = 197 :=
  ⟨by with_unfolding_all decide, by with_unfolding_all decide, by with_unfolding_all decide⟩

/-- C9: `preco_media_simples` is total on every integer list including
the empty one: the divisor is `max(len, 1)`, which is at least 1 and
never zero (as a rational), and on the empty list the function is
defined (its raw mean is 0/1 = 0, rounded to -3). -/
theorem c9_media_divisor_positive :
    (∀ precos : List ℤ,
      preco_media_simples precos =
        arredonda_para_terminar_em_7 ((precos.sum : ℚ) / (max precos.length 1 : ℚ)) ∧
      1 ≤ max precos.length 1 ∧ (max precos.length 1 : ℚ) ≠ 0) ∧
    preco_media_simples [] = -3 := by
  constructor
  · intro precos
    refine ⟨rfl, le_max_right _ _, ?_⟩
    have h1 : 1 ≤ max precos.length 1 := le_max_right _ _
    have h2 : (0 : ℕ) < max precos.length 1 := h1
    exact_mod_cast Nat.pos_iff_ne_zero.mp h2
  · with_unfolding_all decide

end PrecoTenis

namespace PrecoTenis

lemma pyRound_spec (q : ℚ) :
    |q - (pyRound q : ℚ)| ≤ 1 / 2 ∧ (|q - (pyRound q : ℚ)| = 1 / 2 → pyRound q % 2 = 0) := by
  have hfl : ((⌊q⌋ : ℤ) : ℚ) ≤ q := Int.floor_le q
  have hlt : q < ((⌊q⌋ : ℤ) : ℚ) + 1 := by
    have := Int.lt_floor_add_one q
    push_cast at this ⊢
    linarith
  simp only [pyRound]
  split_ifs with h1 h2 h3
  · have habs : |q - ((⌊q⌋ : ℤ) : ℚ)| = q - ((⌊q⌋ : ℤ) : ℚ) := abs_of_nonneg (by linarith)
    refine ⟨by rw [habs]; linarith, ?_⟩
    intro he
    rw [habs] at he
    linarith
  · have habs : |q - ((⌊q⌋ + 1 : ℤ) : ℚ)| = ((⌊q⌋ : ℤ) : ℚ) + 1 - q := by
      push_cast
      rw [abs_sub_comm]
      exact abs_of_nonneg (by linarith)
    refine ⟨by rw [habs]; linarith, ?_⟩
    intro he
    rw [habs] at he
    linarith
  · push_neg at h1 h2
    have heq : q - ((⌊q⌋ : ℤ) : ℚ) = 1 / 2 := le_antisymm h2 h1
    have habs : |q - ((⌊q⌋ : ℤ) : ℚ)| = 1 / 2 := by
      rw [abs_of_nonneg (by linarith)]
      exact heq
    exact ⟨by rw [habs], fun _ => h3⟩
  · push_neg at h1 h2
    have heq : q - ((⌊q⌋ : ℤ) : ℚ) = 1 / 2 := le_antisymm h2 h1
    have habs : |q - ((⌊q⌋ + 1 : ℤ) : ℚ)| = 1 / 2 := by
      push_cast
      rw [abs_sub_comm, abs_of_nonneg (by linarith)]
      linarith
    refine ⟨by rw [habs], fun _ => by omega⟩

/-- C4 counterexample: the cleaned price string "2,5" parses as the
rational 5/2; the specified round-half-up would give 3, but the code
(Python `round`, half to even) stores 2.  Moreover the price "abc12"
cannot be parsed as a number, yet the row is not skipped: the digit
fallback prices it at 12. -/
theorem c4_counterexample :
    pyFloatQ? (cleanPriceL "2,5".data) = some (5 / 2) ∧
    roundHalfUp (5 / 2) = 3 ∧
    rowPrice "2,5".data = some 2 ∧
    int_round_float? (cleanPriceL "abc12".data) = none ∧
    rowPrice "abc12".data = some 12 := by
  refine ⟨?_, ?_, ?_, ?_, ?_⟩ <;> with_unfolding_all decide

/-- C4 (amended): for every raw price string, when the cleaned string
(currency symbol `R$` stripped, dots stripped, spaces stripped, decimal
comma turned into a point) parses as an in-range number q, the stored
price is `pyRound q` — the nearest integer, with an exact tie rounded
to the EVEN neighbour, not upward; when parsing fails, the row is not
necessarily skipped: it falls back to the digits of the raw string and
is skipped only if there are none. -/
theorem c4_price_parsing (s : List Char) :
    (∀ q : ℚ, pyFloatQ? (cleanPriceL s) = some q → pyAbs q < (floatMaxN : ℚ) →
      rowPrice s = some (pyRound q) ∧
      |q - (pyRound q : ℚ)| ≤ 1 / 2 ∧
      (|q - (pyRound q : ℚ)| = 1 / 2 → pyRound q % 2 = 0)) ∧
    (int_round_float? (cleanPriceL s) = none →
      rowPrice s = if (s.filter Char.isDigit).isEmpty then none
        else some (digitsToNat (s.filter Char.isDigit) : ℤ)) := by
  constructor
  · intro q hq hlt
    have hint : int_round_float? (cleanPriceL s) = some (pyRound q) := by
      simp only [int_round_float?, hq]
      rw [if_neg (not_le.mpr hlt)]
    refine ⟨?_, (pyRound_spec q).1, (pyRound_spec q).2⟩
    simp only [rowPrice, hint]
  · intro hnone
    simp only [rowPrice, hnone]

/-- Witness for C4: the amended theorem applied to the price strings
"2,5" (parses as 5/2, within float range) and "abc12" (fails to
parse). -/
theorem c4_price_parsing_witness :
    (rowPrice "2,5".data = some (pyRound (5 / 2)) ∧
      |(5 / 2 : ℚ) - (pyRound (5 / 2) : ℚ)| ≤ 1 / 2 ∧
      (|(5 / 2 : ℚ) - (pyRound (5 / 2) : ℚ)| = 1 / 2 → pyRound (5 / 2) % 2 = 0)) ∧
    rowPrice "abc12".data = (if ("abc12".data.filter Char.isDigit).isEmpty then none
      else some (digitsToNat ("abc12".data.filter Char.isDigit) : ℤ)) :=
  ⟨(c4_price_parsing "2,5".data).1 (5 / 2) (by with_unfolding_all decide)
      (by with_unfolding_all decide),
    (c4_price_parsing "abc12".data).2 (by with_unfolding_all decide)⟩

/-- C10 counterexample: the row with name "-" and price "a1" meets
every premise of the claim — non-empty name, unparseable cleaned price,
at least one digit in the raw price — yet it is skipped, because "-"
normalizes to the empty key (app.py line 103). -/
theorem c10_counterexample :
    pyStripS "-" ≠ "" ∧
    int_round_float? (cleanPriceL (pyStripS "a1").data) = none ∧
    (pyStripS "a1").data.filter Char.isDigit ≠ [] ∧
    rowEntry ⟨some "-", none, some "a1", none⟩ = none ∧
    precosTmp [⟨some "-", none, some "a1", none⟩] = [] := by
  refine ⟨?_, ?_, ?_, ?_, ?_⟩ <;> with_unfolding_all decide

/-- C10 (amended): a data row with a non-empty name that also
normalizes to a non-empty key, and a non-empty raw price that fails to
parse as a number but contains at least one digit character, is not
skipped: it is accepted with its price set to the integer formed by the
digit characters of the raw price in order. -/
theorem c10_digit_fallback (d : Catalog) (row : Row) (nome preco_raw : String)
    (hn : nome = pyStripS (orGet row.materiais (orGet row.material "")))
    (hp : preco_raw = pyStripS (orGet row.preco (orGet row.precoAcc "")))
    (h1 : nome.isEmpty = false) (h2 : preco_raw.isEmpty = false)
    (h3 : int_round_float? (cleanPriceL preco_raw.data) = none)
    (h4 : (preco_raw.data.filter Char.isDigit).isEmpty = false)
    (h5 : (norm nome).isEmpty = false) :
    rowStep d row =
      dictInsert d (norm nome)
        ⟨nome, (digitsToNat (preco_raw.data.filter Char.isDigit) : ℤ)⟩ := by
  have hprice : rowPrice preco_raw.data =
      some (digitsToNat (preco_raw.data.filter Char.isDigit) : ℤ) := by
    simp only [rowPrice, h3, h4]
    rw [if_neg (by simp [h4])]
  simp only [rowStep, rowEntry, ← hn, ← hp, h1, h2, hprice, h5]
  simp

/-- Witness for C10: the row with name "Tecido" and price "x9" is
accepted at price 9. -/
theorem c10_digit_fallback_witness :
    rowStep [] ⟨some "Tecido", none, some "x9", none⟩ =
      dictInsert [] (norm "Tecido")
        ⟨"Tecido", (digitsToNat ("x9".data.filter Char.isDigit) : ℤ)⟩ :=
  c10_digit_fallback [] ⟨some "Tecido", none, some "x9", none⟩ "Tecido" "x9"
    (by decide) (by decide) (by decide) (by decide)
    (by with_unfolding_all decide) (by decide) (by decide)

end PrecoTenis

namespace PrecoTenis

lemma runCarregar_eq (url : Option String) (fetch : Except String (List Row)) (precos : Catalog) :
    runCarregar url fetch precos =
      if (orGet url "").isEmpty then (.error msgNoUrl, precos)
      else
        match fetch with
        | .error e => (.error e, precos)
        | .ok rows =>
          if (precosTmp rows).isEmpty then (.error msgEmptyCsv, precos)
          else (.ok (), precosTmp rows) := by
  rcases fetch with e | rows <;> by_cases h1 : (orGet url "").isEmpty
  · simp only [runCarregar, carregar_precos_do_csv, h1]
    rfl
  · simp only [runCarregar, carregar_precos_do_csv, h1]
    rfl
  · simp only [runCarregar, carregar_precos_do_csv, h1]
    rfl
  · by_cases h2 : (precosTmp rows).isEmpty
    · simp only [runCarregar, carregar_precos_do_csv, h1, h2]
      rfl
    · simp only [runCarregar, carregar_precos_do_csv, h1, h2]
      rfl

/-- C5: a failed load — missing source URL, failed fetch, or zero
accepted rows — leaves the previous catalog exactly as it was, while
the caller observes the error; a successful load fully replaces the
catalog with the freshly parsed non-empty one.  This holds for the bare
loader, for the lazy trigger `garantir_precos`, and for `/reload`. -/
theorem c5_failed_reload_preserves (old : Catalog) (url : Option String)
    (fetch : Except String (List Row)) :
    (∀ e, (runCarregar url fetch old).1 = .error e → (runCarregar url fetch old).2 = old) ∧
    (∀ u, (runCarregar url fetch old).1 = .ok u → ∃ rows, fetch = .ok rows ∧
      (runCarregar url fetch old).2 = precosTmp rows ∧ (precosTmp rows).isEmpty = false) ∧
    (∀ e, (garantir_precos old url fetch).1 = .error e →
      (garantir_precos old url fetch).2.1 = old) ∧
    (∀ e, (reload_endpoint old url fetch).1 = .error e →
      (reload_endpoint old url fetch).2 = old) := by
  have hr := runCarregar_eq url fetch old
  have main : ∀ e, (runCarregar url fetch old).1 = .error e →
      (runCarregar url fetch old).2 = old := by
    intro e he
    rw [hr] at he ⊢
    by_cases h1 : (orGet url "").isEmpty
    · simp [h1]
    · rcases fetch with e0 | rows
      · simp [h1]
      · by_cases h2 : (precosTmp rows).isEmpty
        · simp [h1, h2]
        · simp [h1, h2] at he
  refine ⟨main, ?_, ?_, ?_⟩
  · intro u hu
    rw [hr] at hu ⊢
    by_cases h1 : (orGet url "").isEmpty
    · simp [h1] at hu
    · rcases fetch with e0 | rows
      · simp [h1] at hu
      · by_cases h2 : (precosTmp rows).isEmpty
        · simp [h1, h2] at hu
        · refine ⟨rows, rfl, by simp [h1, h2], ?_⟩
          rw [Bool.not_eq_true] at h2
          exact h2
  · intro e he
    by_cases ho : old.isEmpty
    · simp only [garantir_precos, ho, if_true] at he ⊢
      exact main e he
    · simp [garantir_precos, ho] at he
  · intro e he
    simp only [reload_endpoint] at he ⊢
    rcases hcase : (runCarregar url fetch old).1 with e2 | u
    · simp only [hcase] at he ⊢
      exact main e2 hcase
    · simp only [hcase] at he
      exact absurd he (by simp)

/-- Witness for C5: a reload with no configured URL fails and leaves a
one-entry catalog untouched. -/
theorem c5_failed_reload_preserves_witness :
    (runCarregar none (.error "x") [("k", ⟨"N", 5⟩)]).2 = [("k", ⟨"N", 5⟩)] :=
  (c5_failed_reload_preserves [("k", ⟨"N", 5⟩)] none (.error "x")).1 msgNoUrl
    (by with_unfolding_all decide)

/-- C3 counterexample: with an empty cache and an unconfigured source,
a request whose `materiais` parameter is whitespace-only does NOT get
the ValidationError: the handler first attempts a catalog load (the
trace flag is true) and answers with the 500 catalog error instead. -/
theorem c3_counterexample :
    (preco_endpoint [] none (.error "x") ⟨some " ", none⟩).1 = .erro500 msgNoUrl ∧
    (preco_endpoint [] none (.error "x") ⟨some " ", none⟩).1 ≠ .erroMateriaisObrigatorio ∧
    (preco_endpoint [] none (.error "x") ⟨some " ", none⟩).2.2 = true := by
  refine ⟨?_, ?_, ?_⟩ <;> with_unfolding_all decide

/-- C3 (amended): a `/preco` request with an empty or whitespace-only
`materiais` parameter is rejected with the ValidationError without any
load being attempted ONLY when the catalog cache is non-empty; when the
cache is empty, a load is attempted first, and its failure preempts the
ValidationError with the 500 response. -/
theorem c3_validation_after_catalog (precos : Catalog) (url : Option String)
    (fetch : Except String (List Row)) (q : PrecoQuery)
    (hqs : (pyStripS (q.materiais.getD "")).isEmpty = true) :
    (precos ≠ [] → preco_endpoint precos url fetch q = (.erroMateriaisObrigatorio, precos, false)) ∧
    (precos = [] → (preco_endpoint precos url fetch q).2.2 = true ∧
      (∀ e, (runCarregar url fetch precos).1 = .error e →
        (preco_endpoint precos url fetch q).1 = .erro500 e) ∧
      (∀ u, (runCarregar url fetch precos).1 = .ok u →
        (preco_endpoint precos url fetch q).1 = .erroMateriaisObrigatorio)) := by
  constructor
  · intro hne
    have hb : precos.isEmpty = false := by
      cases precos with
      | nil => exact absurd rfl hne
      | cons a l => rfl
    simp only [preco_endpoint, garantir_precos, hb, Bool.false_eq_true, if_false, hqs, if_true]
  · intro hnil
    subst hnil
    have hb : (List.isEmpty ([] : Catalog)) = true := rfl
    refine ⟨?_, ?_, ?_⟩
    · simp only [preco_endpoint, garantir_precos, hb, if_true]
      rcases hcase : (runCarregar url fetch []).1 with e | u <;>
        simp only [hcase, hqs, if_true]
    · intro e he
      simp only [preco_endpoint, garantir_precos, hb, if_true, he]
    · intro u hu
      simp only [preco_endpoint, garantir_precos, hb, if_true, hu, hqs, if_true]

/-- Witness for C3 (amended): with a one-entry cache, a whitespace-only
`materiais` parameter gets the ValidationError and no load attempt. -/
theorem c3_validation_after_catalog_witness :
    preco_endpoint [("jeans", ⟨"Jeans", 100⟩)] (some "u") (.error "x") ⟨some " ", none⟩ =
      (.erroMateriaisObrigatorio, [("jeans", ⟨"Jeans", 100⟩)], false) :=
  (c3_validation_after_catalog [("jeans", ⟨"Jeans", 100⟩)] (some "u") (.error "x")
    ⟨some " ", none⟩ (by decide)).1 (by decide)

end PrecoTenis

namespace PrecoTenis

lemma dictGet?_insert (d : Catalog) (k : String) (v : Entry) (k2 : String) :
    dictGet? (dictInsert d k v) k2 = if k2 == k then some v else dictGet? d k2 := by
  induction d with
  | nil =>
    simp only [dictInsert, dictGet?, beq_iff_eq]
    by_cases h1 : k = k2
    · rw [if_pos h1, if_pos h1.symm]
    · rw [if_neg h1, if_neg (fun h => h1 h.symm)]
  | cons hd tl ih =>
    obtain ⟨k3, v3⟩ := hd
    simp only [dictInsert, beq_iff_eq]
    by_cases h3 : k3 = k
    · rw [if_pos h3]
      simp only [dictGet?, beq_iff_eq]
      by_cases h2 : k2 = k
      · rw [if_pos h2.symm, if_pos h2]
      · rw [if_neg (fun h => h2 h.symm), if_neg h2,
          if_neg (fun h => h2 (h3 ▸ h).symm)]
    · rw [if_neg h3]
      simp only [dictGet?, beq_iff_eq, ih]
      by_cases h32 : k3 = k2
      · rw [if_pos h32, if_neg (fun h => h3 (h32 ▸ h)), if_pos h32]
      · rw [if_neg h32]
        by_cases h2 : k2 = k
        · rw [if_pos h2, if_pos h2]
        · rw [if_neg h2, if_neg h2, if_neg h32]

lemma mem_dictInsert (d : Catalog) (k : String) (v : Entry) :
    ∀ kv ∈ dictInsert d k v, kv = (k, v) ∨ kv ∈ d := by
  induction d with
  | nil =>
    intro kv hkv
    simp only [dictInsert] at hkv
    rcases List.mem_cons.mp hkv with h | h
    · exact Or.inl h
    · cases h
  | cons hd tl ih =>
    obtain ⟨k3, v3⟩ := hd
    intro kv hkv
    simp only [dictInsert] at hkv
    by_cases h3 : (k3 == k) = true
    · rw [if_pos h3] at hkv
      rcases List.mem_cons.mp hkv with h | h
      · exact Or.inl h
      · exact Or.inr (List.mem_cons_of_mem _ h)
    · rw [if_neg h3] at hkv
      rcases List.mem_cons.mp hkv with h | h
      · exact Or.inr (h ▸ List.mem_cons_self _ _)
      · rcases ih kv h with h2 | h2
        · exact Or.inl h2
        · exact Or.inr (List.mem_cons_of_mem _ h2)

lemma keys_dictInsert (d : Catalog) (k : String) (v : Entry) (k2 : String) :
    k2 ∈ (dictInsert d k v).map Prod.fst → k2 = k ∨ k2 ∈ d.map Prod.fst := by
  intro h
  rcases List.mem_map.mp h with ⟨kv, hkv, hfst⟩
  rcases mem_dictInsert d k v kv hkv with h1 | h1
  · left; rw [← hfst, h1]
  · right; exact List.mem_map.mpr ⟨kv, h1, hfst⟩

lemma nodup_keys_dictInsert (d : Catalog) (k : String) (v : Entry)
    (h : (d.map Prod.fst).Nodup) : ((dictInsert d k v).map Prod.fst).Nodup := by
  induction d with
  | nil => simp [dictInsert]
  | cons hd tl ih =>
    obtain ⟨k3, v3⟩ := hd
    simp only [List.map_cons, List.nodup_cons] at h
    by_cases h3 : (k3 == k) = true
    · simp only [dictInsert, if_pos h3, List.map_cons, List.nodup_cons]
      exact ⟨by rw [← beq_iff_eq.mp h3]; exact h.1, h.2⟩
    · simp only [dictInsert, if_neg h3, List.map_cons, List.nodup_cons]
      refine ⟨?_, ih h.2⟩
      intro hmem
      rcases keys_dictInsert tl k v k3 hmem with he | he
      · exact h3 (beq_iff_eq.mpr he)
      · exact h.1 he

lemma rowEntry_key (row : Row) (k : String) (v : Entry) (h : rowEntry row = some (k, v)) :
    k = norm v.nome := by
  simp only [rowEntry] at h
  split at h
  · cases h
  · split at h
    · cases h
    · split at h
      · cases h
      · injection h with h2
        injection h2 with h3 h4
        rw [← h4, h3]

lemma precosTmp_go (rows : List Row) : ∀ d : Catalog, ∀ k : String,
    dictGet? (rows.foldl rowStep d) k =
      match ((acceptedEntries rows).filter (fun p => p.1 == k)).getLast? with
      | some p => some p.2
      | none => dictGet? d k := by
  induction rows with
  | nil => intro d k; rfl
  | cons row rest ih =>
    intro d k
    simp only [List.foldl_cons, acceptedEntries, List.filterMap_cons]
    rcases hre : rowEntry row with _ | ⟨k0, v0⟩
    · simp only [rowStep, hre]
      exact ih d k
    · simp only [rowStep, hre, List.filter_cons]
      by_cases hk : (k0 == k) = true
      · simp only [hk, if_true]
        rcases hrest : ((rest.filterMap rowEntry).filter (fun p => p.1 == k)).getLast? with _ | p
        · have := ih (dictInsert d k0 v0) k
          simp only [acceptedEntries] at this
          rw [this, hrest]
          have hlast : (((k0, v0) : String × Entry) ::
              (rest.filterMap rowEntry).filter (fun p => p.1 == k)).getLast? = some (k0, v0) := by
            rcases hfr : (rest.filterMap rowEntry).filter (fun p => p.1 == k) with _ | ⟨p2, ps⟩
            · rw [hfr]; rfl
            · rw [hfr] at hrest; cases hrest
          rw [hlast]
          rw [dictGet?_insert]
          rw [if_pos (by rw [beq_iff_eq] at hk ⊢; exact hk.symm)]
        · have := ih (dictInsert d k0 v0) k
          simp only [acceptedEntries] at this
          rw [this, hrest]
          have hlast : (((k0, v0) : String × Entry) ::
              (rest.filterMap rowEntry).filter (fun p => p.1 == k)).getLast? = some p := by
            rcases hfr : (rest.filterMap rowEntry).filter (fun p => p.1 == k) with _ | ⟨p2, ps⟩
            · rw [hfr] at hrest; cases hrest
            · rw [hfr, List.getLast?_cons_cons, ← hfr, hrest]
          rw [hlast]
      · rw [Bool.not_eq_true] at hk
        simp only [hk, Bool.false_eq_true, if_false]
        have := ih (dictInsert d k0 v0) k
        simp only [acceptedEntries] at this
        rw [this]
        rcases hrest : ((rest.filterMap rowEntry).filter (fun p => p.1 == k)).getLast? with _ | p
        · rw [hrest, dictGet?_insert, if_neg (by
            intro hc
            rw [beq_iff_eq] at hc
            rw [hc.symm] at hk
            simp at hk)]
        · rw [hrest]

/-- C7: in any catalog the loader builds, every entry's key is the
normalized form of its stored display name, the keys are pairwise
distinct, the lookup of each key is the LAST accepted row with that
key (last-parsed wins), and a successful load installs exactly that
catalog. -/
theorem c7_catalog_invariants (rows : List Row) :
    (∀ kv ∈ precosTmp rows, kv.1 = norm kv.2.nome) ∧
    ((precosTmp rows).map Prod.fst).Nodup ∧
    (∀ k, dictGet? (precosTmp rows) k =
      (((acceptedEntries rows).filter (fun p => p.1 == k)).getLast?).map Prod.snd) ∧
    (∀ (old : Catalog) (url : Option String) (u : Unit),
      (runCarregar url (.ok rows) old).1 = .ok u →
      (runCarregar url (.ok rows) old).2 = precosTmp rows) := by
  refine ⟨?_, ?_, ?_, ?_⟩
  · have hgen : ∀ (rs : List Row) (d : Catalog), (∀ kv ∈ d, kv.1 = norm kv.2.nome) →
        ∀ kv ∈ rs.foldl rowStep d, kv.1 = norm kv.2.nome := by
      intro rs
      induction rs with
      | nil => intro d hd; exact hd
      | cons row rest ih =>
        intro d hd
        simp only [List.foldl_cons]
        apply ih
        intro kv hkv
        simp only [rowStep] at hkv
        rcases hre : rowEntry row with _ | ⟨k0, v0⟩
        · rw [hre] at hkv; exact hd kv hkv
        · rw [hre] at hkv
          rcases mem_dictInsert d k0 v0 kv hkv with h | h
          · rw [h]; exact rowEntry_key row k0 v0 hre
          · exact hd kv h
    exact hgen rows [] (by intro kv h; cases h)
  · have hgen : ∀ (rs : List Row) (d : Catalog), (d.map Prod.fst).Nodup →
        ((rs.foldl rowStep d).map Prod.fst).Nodup := by
      intro rs
      induction rs with
      | nil => intro d hd; exact hd
      | cons row rest ih =>
        intro d hd
        simp only [List.foldl_cons]
        apply ih
        simp only [rowStep]
        rcases hre : rowEntry row with _ | ⟨k0, v0⟩
        · exact hd
        · exact nodup_keys_dictInsert d k0 v0 hd
    exact hgen rows [] (by simp)
  · intro k
    have := precosTmp_go rows [] k
    rw [precosTmp, this]
    rcases hg : ((acceptedEntries rows).filter (fun p => p.1 == k)).getLast? with _ | p
    · rw [hg]; rfl
    · rw [hg]; rfl
  · intro old url u h
    rw [runCarregar_eq] at h ⊢
    by_cases h1 : (orGet url "").isEmpty
    · simp [h1] at h
    · by_cases h2 : (precosTmp rows).isEmpty
      · simp [h1, h2] at h
      · simp [h1, h2]

/-- Witness for C7: a successful one-row load installs exactly the
catalog the loop built. -/
theorem c7_catalog_invariants_witness :
    (runCarregar (some "u") (.ok [⟨some "Jeans", none, some "100", none⟩]) []).2 =
      precosTmp [⟨some "Jeans", none, some "100", none⟩] :=
  (c7_catalog_invariants [⟨some "Jeans", none, some "100", none⟩]).2.2.2 [] (some "u") ()
    (by with_unfolding_all decide)

end PrecoTenis

namespace PrecoTenis

lemma resolver_go (precos : Catalog) : ∀ (pedidos : List String)
    (acc : List (String × ℤ) × List ℤ × List String),
    pedidos.foldl (resolveStep precos) acc =
      (acc.1 ++ pedidos.filterMap
        (fun m => (dictGet? precos (norm m)).map (fun e => (e.nome, e.preco))),
       acc.2.1 ++ pedidos.filterMap
        (fun m => (dictGet? precos (norm m)).map (fun e => e.preco)),
       acc.2.2 ++ pedidos.filter (fun m => (dictGet? precos (norm m)).isNone)) := by
  intro pedidos
  induction pedidos with
  | nil => intro acc; simp
  | cons m rest ih =>
    intro acc
    simp only [List.foldl_cons, List.filterMap_cons, List.filter_cons]
    rcases hm : dictGet? precos (norm m) with _ | e
    · simp only [resolveStep, hm, Option.isNone_none, if_true, Option.map_none']
      rw [ih]
      simp
    · simp only [resolveStep, hm, Option.isNone_some, Option.map_some']
      rw [ih]
      simp

lemma resolver_eq (precos : Catalog) (pedidos : List String) :
    resolver precos pedidos =
      (pedidos.filterMap (fun m => (dictGet? precos (norm m)).map (fun e => (e.nome, e.preco))),
       pedidos.filterMap (fun m => (dictGet? precos (norm m)).map (fun e => e.preco)),
       pedidos.filter (fun m => (dictGet? precos (norm m)).isNone)) := by
  rw [resolver, resolver_go]
  simp

lemma mem_insertSorted (a b : String) (l : List String) :
    b ∈ insertSorted a l ↔ b = a ∨ b ∈ l := by
  induction l with
  | nil => simp [insertSorted]
  | cons t ts ih =>
    simp only [insertSorted]
    by_cases h : a ≤ t
    · rw [if_pos h]
      simp [List.mem_cons]
    · rw [if_neg h]
      simp only [List.mem_cons, ih]
      tauto

lemma sorted_insertSorted (a : String) (l : List String)
    (h : l.Sorted (· ≤ ·)) : (insertSorted a l).Sorted (· ≤ ·) := by
  induction l with
  | nil => simp [insertSorted]
  | cons t ts ih =>
    rw [List.sorted_cons] at h
    simp only [insertSorted]
    by_cases hle : a ≤ t
    · rw [if_pos hle]
      rw [List.sorted_cons]
      refine ⟨?_, by rw [List.sorted_cons]; exact h⟩
      intro b hb
      rcases List.mem_cons.mp hb with rfl | hb2
      · exact hle
      · exact le_trans hle (h.1 b hb2)
    · rw [if_neg hle]
      rw [List.sorted_cons]
      refine ⟨?_, ih h.2⟩
      intro b hb
      rcases (mem_insertSorted a b ts).mp hb with rfl | hb2
      · exact le_of_not_le hle
      · exact h.1 b hb2

lemma sortStr_sorted (l : List String) : (sortStr l).Sorted (· ≤ ·) := by
  induction l with
  | nil => simp [sortStr]
  | cons t ts ih => exact sorted_insertSorted t _ ih

lemma mem_sortStr (a : String) (l : List String) : a ∈ sortStr l ↔ a ∈ l := by
  induction l with
  | nil => simp [sortStr]
  | cons t ts ih =>
    simp only [sortStr, List.foldr_cons, List.mem_cons]
    rw [show List.foldr insertSorted [] ts = sortStr ts from rfl] at *
    rw [mem_insertSorted]
    tauto

/-- C6: whenever at least one requested name fails to resolve (with a
warm catalog and valid parameters), the whole query fails: the response
is the unknown-materials error carrying exactly the unresolved requests
(in order) and the sorted deduplicated list of every canonical display
name of the catalog; no priced result is produced. -/
theorem c6_unresolved_fails_whole (precos : Catalog) (url : Option String)
    (fetch : Except String (List Row)) (q : PrecoQuery)
    (hne : precos.isEmpty = false)
    (hqs : (pyStripS (q.materiais.getD "")).isEmpty = false)
    (hregra : REGRAS.contains
      (pyStripS (strOr (q.regra.getD "media_simples") "media_simples")) = true)
    (hunres : (pedidosOf (pyStripS (q.materiais.getD ""))).filter
      (fun m => (dictGet? precos (norm m)).isNone) ≠ []) :
    preco_endpoint precos url fetch q =
      (.erroDesconhecidos
        ((pedidosOf (pyStripS (q.materiais.getD ""))).filter
          (fun m => (dictGet? precos (norm m)).isNone))
        (sugestoesOf precos), precos, false) ∧
    (∀ ms its p rg, (preco_endpoint precos url fetch q).1 ≠ .ok ms its p rg) ∧
    (sugestoesOf precos).Sorted (· ≤ ·) ∧
    (∀ n, n ∈ sugestoesOf precos ↔ n ∈ precos.map (fun kv => kv.2.nome)) := by
  have hped : (pedidosOf (pyStripS (q.materiais.getD ""))).isEmpty = false := by
    rcases hp : pedidosOf (pyStripS (q.materiais.getD "")) with _ | ⟨m, ms⟩
    · rw [hp] at hunres
      simp at hunres
    · rfl
  have hfil : ((resolver precos (pedidosOf (pyStripS (q.materiais.getD "")))).2.2) =
      (pedidosOf (pyStripS (q.materiais.getD ""))).filter
        (fun m => (dictGet? precos (norm m)).isNone) := by
    rw [resolver_eq]
  have hfile : ((resolver precos (pedidosOf (pyStripS (q.materiais.getD "")))).2.2).isEmpty = false := by
    rw [hfil]
    rcases hp : (pedidosOf (pyStripS (q.materiais.getD ""))).filter
      (fun m => (dictGet? precos (norm m)).isNone) with _ | ⟨m, ms⟩
    · exact absurd hp hunres
    · rfl
  have hmain : preco_endpoint precos url fetch q =
      (.erroDesconhecidos
        ((pedidosOf (pyStripS (q.materiais.getD ""))).filter
          (fun m => (dictGet? precos (norm m)).isNone))
        (sugestoesOf precos), precos, false) := by
    simp only [preco_endpoint, garantir_precos, hne, Bool.false_eq_true, if_false,
      hqs, hregra, Bool.not_true, hped, hfile, Bool.not_false, if_true, ← hfil]
  refine ⟨hmain, ?_, sortStr_sorted _, ?_⟩
  · intro ms its p rg
    rw [hmain]
    simp
  · intro n
    unfold sugestoesOf
    rw [mem_sortStr, List.mem_dedup]

/-- Witness for C6: with a catalog holding only Couro Bovino, the query
"Jeans, couro-bovino" fails carrying exactly ["Jeans"] and suggesting
["Couro Bovino"]. -/
theorem c6_unresolved_fails_whole_witness :
    preco_endpoint [("couro bovino", ⟨"Couro Bovino", 200⟩)] (some "u") (.error "x")
        ⟨some "Jeans, couro-bovino", none⟩ =
      (.erroDesconhecidos
        ((pedidosOf (pyStripS ((some "Jeans, couro-bovino" : Option String).getD ""))).filter
          (fun m => (dictGet? [("couro bovino", ⟨"Couro Bovino", 200⟩)] (norm m)).isNone))
        (sugestoesOf [("couro bovino", ⟨"Couro Bovino", 200⟩)]),
       [("couro bovino", ⟨"Couro Bovino", 200⟩)], false) :=
  (c6_unresolved_fails_whole [("couro bovino", ⟨"Couro Bovino", 200⟩)] (some "u") (.error "x")
    ⟨some "Jeans, couro-bovino", none⟩ (by decide) (by decide) (by decide) (by decide)).1

end PrecoTenis
namespace PrecoTenis

def CleanP (c : Char) : Prop :=
  isSpC c = false ∧ lowerChar c = c ∧ unidecodeChar c = [c] ∧ hyph c = c

lemma lookup_mem {α β : Type} [BEq α] [LawfulBEq α] :
    ∀ (l : List (α × β)) (k : α) (v : β), List.lookup k l = some v → (k, v) ∈ l := by
  intro l
  induction l with
  | nil => intro k v h; cases h
  | cons hd tl ih =>
    obtain ⟨a, b⟩ := hd
    intro k v h
    simp only [List.lookup] at h
    by_cases hk : (k == a) = true
    · rw [hk] at h
      injection h with h2
      rw [← h2, eq_of_beq hk]
      exact List.mem_cons_self _ _
    · rw [Bool.not_eq_true] at hk
      rw [hk] at h
      exact List.mem_cons_of_mem _ (ih k v h)

lemma lowerTable_vals : ∀ p ∈ lowerTable, List.lookup p.2 lowerTable = none := by decide

lemma accentTable_vals : ∀ p ∈ accentTable, ∀ d ∈ p.2,
    isSpC d = false ∧ List.lookup d lowerTable = none ∧ d.toNat < 128 ∧ (d == '-') = false := by
  decide

lemma accentTable_keys : ∀ p ∈ accentTable, List.lookup p.1 lowerTable = none := by decide

lemma lookup_lowerChar_none (c : Char) : List.lookup (lowerChar c) lowerTable = none := by
  unfold lowerChar
  rcases hl : List.lookup c lowerTable with _ | v
  · exact hl
  · exact lowerTable_vals (c, v) (lookup_mem lowerTable c v hl)

lemma lowerChar_idem (c : Char) : lowerChar (lowerChar c) = lowerChar c := by
  conv_lhs => rw [lowerChar]
  rw [lookup_lowerChar_none c]

lemma unidecodeChar_ascii (c : Char) (h : c.toNat < 128) : unidecodeChar c = [c] := by
  unfold unidecodeChar
  rw [if_pos h]

lemma hyph_of_ne (c : Char) (h : (c == '-') = false) : hyph c = c := by
  unfold hyph
  rw [h]
  rfl

lemma lowerChar_eq_self_of_lookup_none (c : Char) (h : List.lookup c lowerTable = none) :
    lowerChar c = c := by
  unfold lowerChar
  rw [h]

lemma pipeChar_good (c : Char) : ∀ d ∈ pipeChar c, isSpC d = true ∨ CleanP d := by
  intro d hd
  simp only [pipeChar] at hd
  rcases List.mem_map.mp hd with ⟨e, he, hde⟩
  have hfix : List.lookup (lowerChar c) lowerTable = none := lookup_lowerChar_none c
  by_cases h128 : (lowerChar c).toNat < 128
  · rw [unidecodeChar_ascii (lowerChar c) h128] at he
    rcases List.mem_cons.mp he with heq | hf
    · by_cases hdash : (e == '-') = true
      · rw [← hde, hyph, if_pos hdash]
        left; rfl
      · rw [Bool.not_eq_true] at hdash
        rw [← hde, hyph_of_ne e hdash]
        by_cases hsp : isSpC e = true
        · left; exact hsp
        · right
          refine ⟨by rw [Bool.not_eq_true] at hsp; exact hsp, ?_, ?_, hyph_of_ne e hdash⟩
          · exact lowerChar_eq_self_of_lookup_none e (by rw [heq]; exact hfix)
          · exact unidecodeChar_ascii e (by rw [heq]; exact h128)
    · cases hf
  · rw [unidecodeChar] at he
    rw [if_neg h128] at he
    rcases ha : List.lookup (lowerChar c) accentTable with _ | out
    · rw [ha] at he; cases he
    · rw [ha] at he
      have hmem := lookup_mem accentTable (lowerChar c) out ha
      have hfacts := accentTable_vals (lowerChar c, out) hmem e he
      rw [← hde, hyph_of_ne e hfacts.2.2.2]
      right
      exact ⟨hfacts.1, lowerChar_eq_self_of_lookup_none e hfacts.2.1,
        unidecodeChar_ascii e hfacts.2.2.1, hyph_of_ne e hfacts.2.2.2⟩

end PrecoTenis
namespace PrecoTenis

lemma pipeL_cons (c : Char) (l : List Char) : pipeL (c :: l) = pipeChar c ++ pipeL l := by
  simp only [pipeL, lowerL, unidecodeL, hyphL, pipeChar, List.map_cons, List.map_append]

lemma pipeL_nil : pipeL [] = [] := rfl

lemma pipeL_append (a b : List Char) : pipeL (a ++ b) = pipeL a ++ pipeL b := by
  induction a with
  | nil => simp [pipeL_nil]
  | cons c a ih => simp only [List.cons_append, pipeL_cons, ih, List.append_assoc]

lemma mem_pipeL (l : List Char) (d : Char) (h : d ∈ pipeL l) :
    isSpC d = true ∨ CleanP d := by
  induction l with
  | nil => cases h
  | cons c rest ih =>
    rw [pipeL_cons] at h
    rcases List.mem_append.mp h with h2 | h2
    · exact pipeChar_good c d h2
    · exact ih h2

lemma pipeChar_clean (c : Char) (h : CleanP c) : pipeChar c = [c] := by
  simp only [pipeChar, h.2.1, h.2.2.1, List.map_cons, List.map_nil, h.2.2.2]

lemma isSpC_cases (c : Char) (h : isSpC c = true) :
    c = ' ' ∨ c = '\t' ∨ c = '\n' ∨ c = '\r' ∨ c = '\x0b' ∨ c = '\x0c' := by
  simp only [isSpC, Bool.or_eq_true, beq_iff_eq] at h
  tauto

lemma pipeChar_space (c : Char) (h : isSpC c = true) : pipeChar c = [c] := by
  rcases isSpC_cases c h with rfl | rfl | rfl | rfl | rfl | rfl <;> decide

lemma pipeL_id (l : List Char) (h : ∀ c ∈ l, isSpC c = true ∨ CleanP c) : pipeL l = l := by
  induction l with
  | nil => rfl
  | cons c rest ih =>
    rw [pipeL_cons]
    have hc : pipeChar c = [c] := by
      rcases h c (List.mem_cons_self _ _) with hs | hcl
      · exact pipeChar_space c hs
      · exact pipeChar_clean c hcl
    rw [hc, ih (fun d hd => h d (List.mem_cons_of_mem _ hd))]
    rfl

lemma pipeL_spaces (l : List Char) (h : ∀ c ∈ l, isSpC c = true) : pipeL l = l :=
  pipeL_id l (fun c hc => Or.inl (h c hc))

end PrecoTenis
namespace PrecoTenis

lemma swAux_spaces_nil (l : List Char) (h : ∀ c ∈ l, isSpC c = true) :
    splitWordsAux l [] = [] := by
  induction l with
  | nil => rfl
  | cons c rest ih =>
    simp only [splitWordsAux, h c (List.mem_cons_self _ _), if_true, List.isEmpty_nil]
    exact ih (fun d hd => h d (List.mem_cons_of_mem _ hd))

lemma swAux_spaces (sp : List Char) (h : ∀ c ∈ sp, isSpC c = true) :
    ∀ acc : List Char, splitWordsAux sp acc = splitWordsAux [] acc := by
  induction sp with
  | nil => intro acc; rfl
  | cons s sp2 ih =>
    intro acc
    have hs : isSpC s = true := h s (List.mem_cons_self _ _)
    have hsp2 : ∀ c ∈ sp2, isSpC c = true := fun d hd => h d (List.mem_cons_of_mem _ hd)
    have hnil := swAux_spaces_nil sp2 hsp2
    simp only [splitWordsAux, hs, if_true, hnil]

lemma swAux_space_suffix (x : List Char) : ∀ (acc sp : List Char),
    (∀ c ∈ sp, isSpC c = true) → splitWordsAux (x ++ sp) acc = splitWordsAux x acc := by
  induction x with
  | nil =>
    intro acc sp h
    simp only [List.nil_append]
    exact swAux_spaces sp h acc
  | cons c x2 ih =>
    intro acc sp h
    simp only [List.cons_append, splitWordsAux, List.append_eq]
    by_cases hc : isSpC c = true
    · simp only [hc, if_true]
      rcases acc with _ | ⟨a, as⟩
      · simp only [List.isEmpty_nil, if_true]
        exact ih [] sp h
      · simp only [List.isEmpty_cons, Bool.false_eq_true, if_false]
        rw [ih [] sp h]
    · rw [Bool.not_eq_true] at hc
      simp only [hc, Bool.false_eq_true, if_false]
      exact ih (c :: acc) sp h

lemma sw_space_head (l : List Char) (s : Char) (hs : isSpC s = true) :
    splitWords (s :: l) = splitWords l := by
  simp only [splitWords, splitWordsAux, hs, if_true, List.isEmpty_nil]

lemma sw_spaces_head (sp l : List Char) (h : ∀ c ∈ sp, isSpC c = true) :
    splitWords (sp ++ l) = splitWords l := by
  induction sp with
  | nil => rfl
  | cons s sp2 ih =>
    simp only [List.cons_append]
    rw [sw_space_head _ s (h s (List.mem_cons_self _ _))]
    exact ih (fun d hd => h d (List.mem_cons_of_mem _ hd))

lemma takeWhile_spaces (l : List Char) : ∀ c ∈ l.takeWhile isSpC, isSpC c = true := by
  induction l with
  | nil => intro c hc; cases hc
  | cons a rest ih =>
    intro c hc
    by_cases ha : isSpC a = true
    · rw [List.takeWhile_cons, if_pos ha] at hc
      rcases List.mem_cons.mp hc with rfl | h2
      · exact ha
      · exact ih c h2
    · rw [Bool.not_eq_true] at ha
      rw [List.takeWhile_cons] at hc
      simp only [ha, Bool.false_eq_true, if_false] at hc
      cases hc

lemma strip_decomp (l : List Char) : ∃ sp1 sp2 : List Char,
    (∀ c ∈ sp1, isSpC c = true) ∧ (∀ c ∈ sp2, isSpC c = true) ∧
    l = sp1 ++ stripL l ++ sp2 := by
  refine ⟨l.takeWhile isSpC, ((l.dropWhile isSpC).reverse.takeWhile isSpC).reverse,
    takeWhile_spaces l, ?_, ?_⟩
  · intro c hc
    rw [List.mem_reverse] at hc
    exact takeWhile_spaces _ c hc
  · have hd : l.dropWhile isSpC =
        stripL l ++ ((l.dropWhile isSpC).reverse.takeWhile isSpC).reverse := by
      conv_lhs => rw [← List.reverse_reverse (l.dropWhile isSpC)]
      conv_lhs =>
        rw [show (l.dropWhile isSpC).reverse =
          ((l.dropWhile isSpC).reverse.takeWhile isSpC) ++
            ((l.dropWhile isSpC).reverse.dropWhile isSpC) from
          (List.takeWhile_append_dropWhile isSpC (l.dropWhile isSpC).reverse).symm]
      rw [List.reverse_append]
      rfl
    rw [List.append_assoc, ← hd]
    exact (List.takeWhile_append_dropWhile isSpC l).symm

lemma norm_nostrip (l : List Char) :
    splitWords (pipeL (stripL l)) = splitWords (pipeL l) := by
  obtain ⟨sp1, sp2, h1, h2, hdec⟩ := strip_decomp l
  conv_rhs => rw [hdec]
  rw [pipeL_append, pipeL_append, pipeL_spaces sp1 h1, pipeL_spaces sp2 h2,
    List.append_assoc, sw_spaces_head sp1 _ h1]
  unfold splitWords
  rw [swAux_space_suffix (pipeL (stripL l)) [] sp2 h2]

end PrecoTenis
namespace PrecoTenis

lemma isEmpty_false_of_ne_nil (l : List Char) (h : l ≠ []) : l.isEmpty = false := by
  rcases l with _ | ⟨a, as⟩
  · exact absurd rfl h
  · rfl

lemma swAux_nospace (l : List Char) : ∀ acc : List Char, (∀ c ∈ l, isSpC c = false) →
    splitWordsAux l acc =
      if (acc.reverse ++ l).isEmpty then [] else [acc.reverse ++ l] := by
  induction l with
  | nil =>
    intro acc _
    simp only [splitWordsAux, List.append_nil]
    rcases acc with _ | ⟨a, as⟩
    · rfl
    · rw [isEmpty_false_of_ne_nil ((a :: as).reverse) (by simp)]
      simp
  | cons c l2 ih =>
    intro acc h
    have hc : isSpC c = false := h c (List.mem_cons_self _ _)
    simp only [splitWordsAux, hc, Bool.false_eq_true, if_false]
    rw [ih (c :: acc) (fun d hd => h d (List.mem_cons_of_mem _ hd))]
    rw [isEmpty_false_of_ne_nil ((c :: acc).reverse ++ l2) (by simp),
      isEmpty_false_of_ne_nil (acc.reverse ++ c :: l2) (by simp)]
    simp only [Bool.false_eq_true, if_false]
    rw [List.reverse_cons, List.append_assoc]
    rfl

lemma swAux_word (w : List Char) : ∀ (acc rest : List Char),
    (∀ c ∈ w, isSpC c = false) → (acc.reverse ++ w) ≠ [] →
    splitWordsAux (w ++ ' ' :: rest) acc = (acc.reverse ++ w) :: splitWordsAux rest [] := by
  induction w with
  | nil =>
    intro acc rest _ hne
    simp only [List.append_nil] at hne
    simp only [List.nil_append, splitWordsAux, show isSpC ' ' = true from rfl, if_true]
    have hacc : acc ≠ [] := by
      intro hx
      rw [hx] at hne
      exact hne rfl
    rw [isEmpty_false_of_ne_nil acc hacc]
    simp only [Bool.false_eq_true, if_false, List.append_nil]
  | cons c w2 ih =>
    intro acc rest h hne
    have hc : isSpC c = false := h c (List.mem_cons_self _ _)
    simp only [List.cons_append, splitWordsAux, hc, Bool.false_eq_true, if_false,
      List.append_eq]
    rw [ih (c :: acc) rest (fun d hd => h d (List.mem_cons_of_mem _ hd))
      (by simp)]
    rw [List.reverse_cons, List.append_assoc]
    rfl

lemma sw_join (ws : List (List Char))
    (h : ∀ w ∈ ws, w ≠ [] ∧ ∀ c ∈ w, isSpC c = false) :
    splitWords (joinWords ws) = ws := by
  induction ws with
  | nil => rfl
  | cons w ws2 ih =>
    rcases ws2 with _ | ⟨w2, ws3⟩
    · show splitWords (joinWords [w]) = [w]
      have hw := h w (List.mem_cons_self _ _)
      simp only [joinWords, splitWords]
      rw [swAux_nospace w [] hw.2]
      have : (([] : List Char).reverse ++ w).isEmpty = false := by
        simp only [List.reverse_nil, List.nil_append]
        rcases hx : w with _ | ⟨a, as⟩
        · exact absurd hx hw.1
        · rfl
      rw [this]
      simp
    · have hw := h w (List.mem_cons_self _ _)
      show splitWords (w ++ ' ' :: joinWords (w2 :: ws3)) = w :: w2 :: ws3
      unfold splitWords
      rw [swAux_word w [] (joinWords (w2 :: ws3)) hw.2 (by simpa using hw.1)]
      simp only [List.reverse_nil, List.nil_append]
      have := ih (fun v hv => h v (List.mem_cons_of_mem _ hv))
      unfold splitWords at this
      rw [this]

end PrecoTenis
namespace PrecoTenis

lemma mem_splitWordsAux (l : List Char) : ∀ acc : List Char,
    (∀ c ∈ acc, isSpC c = false) →
    ∀ w ∈ splitWordsAux l acc, w ≠ [] ∧ ∀ c ∈ w, isSpC c = false ∧ (c ∈ acc ∨ c ∈ l) := by
  induction l with
  | nil =>
    intro acc hacc w hw
    simp only [splitWordsAux] at hw
    rcases acc with _ | ⟨a, as⟩
    · simp at hw
    · simp only [List.isEmpty_cons, Bool.false_eq_true, if_false] at hw
      rcases List.mem_cons.mp hw with rfl | h2
      · refine ⟨by simp, ?_⟩
        intro c hcm
        rw [List.mem_reverse] at hcm
        exact ⟨hacc c hcm, Or.inl hcm⟩
      · cases h2
  | cons x l2 ih =>
    intro acc hacc w hw
    simp only [splitWordsAux] at hw
    by_cases hx : isSpC x = true
    · rw [if_pos hx] at hw
      rcases acc with _ | ⟨a, as⟩
      · simp only [List.isEmpty_nil, if_true] at hw
        have := ih [] (by intro c hcm; cases hcm) w hw
        exact ⟨this.1, fun c hcm =>
          ⟨(this.2 c hcm).1, Or.inr (List.mem_cons_of_mem _
            ((this.2 c hcm).2.resolve_left (fun hh => by cases hh)))⟩⟩
      · simp only [List.isEmpty_cons, Bool.false_eq_true, if_false] at hw
        rcases List.mem_cons.mp hw with rfl | h2
        · refine ⟨by simp, ?_⟩
          intro c hcm
          rw [List.mem_reverse] at hcm
          exact ⟨hacc c hcm, Or.inl hcm⟩
        · have := ih [] (by intro c hcm; cases hcm) w h2
          exact ⟨this.1, fun c hcm =>
            ⟨(this.2 c hcm).1, Or.inr (List.mem_cons_of_mem _
              ((this.2 c hcm).2.resolve_left (fun hh => by cases hh)))⟩⟩
    · rw [Bool.not_eq_true] at hx
      simp only [hx, Bool.false_eq_true, if_false] at hw
      have := ih (x :: acc) (by
        intro c hcm
        rcases List.mem_cons.mp hcm with rfl | h2
        · exact hx
        · exact hacc c h2) w hw
      refine ⟨this.1, ?_⟩
      intro c hcm
      rcases (this.2 c hcm).2 with h2 | h2
      · rcases List.mem_cons.mp h2 with rfl | h3
        · exact ⟨(this.2 c hcm).1, Or.inr (List.mem_cons_self _ _)⟩
        · exact ⟨(this.2 c hcm).1, Or.inl h3⟩
      · exact ⟨(this.2 c hcm).1, Or.inr (List.mem_cons_of_mem _ h2)⟩

lemma mem_splitWords (l : List Char) :
    ∀ w ∈ splitWords l, w ≠ [] ∧ ∀ c ∈ w, isSpC c = false ∧ c ∈ l := by
  intro w hw
  have := mem_splitWordsAux l [] (by intro c hcm; cases hcm) w hw
  exact ⟨this.1, fun c hcm => ⟨(this.2 c hcm).1,
    (this.2 c hcm).2.resolve_left (fun hh => by cases hh)⟩⟩

lemma mem_joinWords (ws : List (List Char)) (c : Char) (h : c ∈ joinWords ws) :
    (∃ w ∈ ws, c ∈ w) ∨ c = ' ' := by
  induction ws with
  | nil => cases h
  | cons w ws2 ih =>
    rcases ws2 with _ | ⟨w2, ws3⟩
    · exact Or.inl ⟨w, List.mem_cons_self _ _, h⟩
    · simp only [joinWords] at h
      rcases List.mem_append.mp h with h2 | h2
      · exact Or.inl ⟨w, List.mem_cons_self _ _, h2⟩
      · rcases List.mem_cons.mp h2 with rfl | h3
        · exact Or.inr rfl
        · rcases ih h3 with ⟨v, hv, hcv⟩ | hsp
          · exact Or.inl ⟨v, List.mem_cons_of_mem _ hv, hcv⟩
          · exact Or.inr hsp

lemma normL_out (l : List Char) : ∀ c ∈ normL l, isSpC c = true ∨ CleanP c := by
  intro c hc
  unfold normL at hc
  rcases mem_joinWords _ c hc with ⟨w, hw, hcw⟩ | rfl
  · have hsw := mem_splitWords _ w hw
    have hmem := (hsw.2 c hcw).2
    exact mem_pipeL _ c hmem
  · left; rfl

lemma normL_words (l : List Char) :
    ∀ w ∈ splitWords (pipeL (stripL l)), w ≠ [] ∧ ∀ c ∈ w, isSpC c = false := by
  intro w hw
  have := mem_splitWords _ w hw
  exact ⟨this.1, fun c hc => (this.2 c hc).1⟩

lemma normL_idem (l : List Char) : normL (normL l) = normL l := by
  conv_lhs => rw [normL, norm_nostrip]
  have hpipe : pipeL (normL l) = normL l := pipeL_id _ (normL_out l)
  rw [hpipe]
  show joinWords (splitWords (joinWords (splitWords (pipeL (stripL l))))) = normL l
  rw [sw_join _ (normL_words l)]
  rfl

end PrecoTenis
namespace PrecoTenis

lemma normL_eq (l : List Char) : normL l = joinWords (splitWords (pipeL l)) := by
  unfold normL
  rw [norm_nostrip]

lemma normL_subst (a b : List Char) (c d : Char) (h : pipeChar c = pipeChar d) :
    normL (a ++ c :: b) = normL (a ++ d :: b) := by
  rw [normL_eq, normL_eq]
  have h1 : pipeL (a ++ c :: b) = pipeL a ++ pipeChar c ++ pipeL b := by
    rw [pipeL_append, pipeL_cons, List.append_assoc]
  have h2 : pipeL (a ++ d :: b) = pipeL a ++ pipeChar d ++ pipeL b := by
    rw [pipeL_append, pipeL_cons, List.append_assoc]
  rw [h1, h2, h]

lemma pipeChar_lower (c : Char) : pipeChar c = pipeChar (lowerChar c) := by
  unfold pipeChar
  rw [lowerChar_idem]

lemma pipeChar_deaccent (c d : Char) (h : unidecodeChar c = [d]) :
    pipeChar c = pipeChar d := by
  by_cases h128 : c.toNat < 128
  · rw [unidecodeChar_ascii c h128] at h
    injection h with h2
    rw [h2]
  · rw [unidecodeChar, if_neg h128] at h
    rcases ha : List.lookup c accentTable with _ | out
    · rw [ha] at h
      cases h
    · rw [ha] at h
      have h2 : out = [d] := h
      rw [h2] at ha
      have hmem := lookup_mem accentTable c [d] ha
      have hkey := accentTable_keys (c, [d]) hmem
      have hfacts := accentTable_vals (c, [d]) hmem d (List.mem_cons_self _ _)
      unfold pipeChar
      rw [lowerChar_eq_self_of_lookup_none c hkey,
        lowerChar_eq_self_of_lookup_none d hfacts.2.1,
        unidecodeChar_ascii d hfacts.2.2.1]
      rw [show unidecodeChar c = [d] by rw [unidecodeChar, if_neg h128, ha]]

lemma sw_wsubst (s t : Char) (hs : isSpC s = true) (ht : isSpC t = true) :
    ∀ (x : List Char) (acc y : List Char),
    splitWordsAux (x ++ s :: y) acc = splitWordsAux (x ++ t :: y) acc := by
  intro x
  induction x with
  | nil =>
    intro acc y
    simp only [List.nil_append, splitWordsAux, hs, ht, if_true]
  | cons c x2 ih =>
    intro acc y
    simp only [List.cons_append, splitWordsAux, List.append_eq]
    by_cases hc : isSpC c = true
    · simp only [hc, if_true]
      rcases acc with _ | ⟨a, as⟩
      · simp only [List.isEmpty_nil, if_true]
        exact ih [] y
      · simp only [List.isEmpty_cons, Bool.false_eq_true, if_false]
        rw [ih [] y]
    · rw [Bool.not_eq_true] at hc
      simp only [hc, Bool.false_eq_true, if_false]
      exact ih (c :: acc) y

lemma sw_dup (s : Char) (hs : isSpC s = true) :
    ∀ (x : List Char) (acc y : List Char),
    splitWordsAux (x ++ s :: s :: y) acc = splitWordsAux (x ++ s :: y) acc := by
  intro x
  induction x with
  | nil =>
    intro acc y
    simp only [List.nil_append, splitWordsAux, hs, if_true, List.isEmpty_nil]
  | cons c x2 ih =>
    intro acc y
    simp only [List.cons_append, splitWordsAux, List.append_eq]
    by_cases hc : isSpC c = true
    · simp only [hc, if_true]
      rcases acc with _ | ⟨a, as⟩
      · simp only [List.isEmpty_nil, if_true]
        exact ih [] y
      · simp only [List.isEmpty_cons, Bool.false_eq_true, if_false]
        rw [ih [] y]
    · rw [Bool.not_eq_true] at hc
      simp only [hc, Bool.false_eq_true, if_false]
      exact ih (c :: acc) y

lemma normL_simStep (l1 l2 : List Char) (h : SimStep l1 l2) : normL l1 = normL l2 := by
  cases h with
  | lower a b c => exact normL_subst a b c (lowerChar c) (pipeChar_lower c)
  | deaccent a b c d hcd => exact normL_subst a b c d (pipeChar_deaccent c d hcd)
  | hyphSpace a b => exact normL_subst a b '-' ' ' (by decide)
  | wsSubst a b s t hs ht =>
    rw [normL_eq, normL_eq, pipeL_append, pipeL_append, pipeL_cons, pipeL_cons,
      pipeChar_space s hs, pipeChar_space t ht]
    unfold splitWords
    show joinWords (splitWordsAux (pipeL a ++ s :: pipeL b) []) =
      joinWords (splitWordsAux (pipeL a ++ t :: pipeL b) [])
    rw [sw_wsubst s t hs ht (pipeL a) [] (pipeL b)]
  | wsDup a b s hs =>
    rw [normL_eq, normL_eq, pipeL_append, pipeL_append, pipeL_cons, pipeL_cons,
      pipeL_cons, pipeChar_space s hs]
    unfold splitWords
    show joinWords (splitWordsAux (pipeL a ++ s :: pipeL b) []) =
      joinWords (splitWordsAux (pipeL a ++ s :: s :: pipeL b) [])
    rw [sw_dup s hs (pipeL a) [] (pipeL b)]
  | wsLead _ s hs =>
    rw [normL_eq, normL_eq, pipeL_cons, pipeChar_space s hs]
    show joinWords (splitWords (pipeL l1)) = joinWords (splitWords (s :: pipeL l1))
    rw [sw_space_head (pipeL l1) s hs]
  | wsTrail _ s hs =>
    rw [normL_eq, normL_eq, pipeL_append, pipeL_cons, pipeL_nil,
      List.append_nil, pipeChar_space s hs]
    unfold splitWords
    rw [swAux_space_suffix (pipeL l1) [] [s] (by
      intro c hc
      rcases List.mem_cons.mp hc with rfl | h2
      · exact hs
      · cases h2)]

lemma normL_eqvGen : ∀ x y : List Char, Relation.EqvGen SimStep x y → normL x = normL y := by
  intro x y h
  induction h with
  | rel x y hxy => exact normL_simStep x y hxy
  | refl x => rfl
  | symm x y hxy ih => exact ih.symm
  | trans x y z hxy hyz ih1 ih2 => exact ih1.trans ih2

/-- C8: `norm` is idempotent, and any two strings related by the
equivalence closure of the elementary differences — letter case,
diacritics, hyphen versus space, whitespace runs at either end or
inside — normalize to the same key. -/
theorem c8_norm_idempotent_invariant :
    (∀ x : String, norm (norm x) = norm x) ∧
    (∀ a b : String, Relation.EqvGen SimStep a.data b.data → norm a = norm b) := by
  constructor
  · intro x
    unfold norm
    exact congrArg String.mk (normL_idem x.data)
  · intro a b h
    unfold norm
    exact congrArg String.mk (normL_eqvGen a.data b.data h)

/-- Witness for C8: the hyphen and space spellings of Couro Bovino
normalize identically, through a one-step similarity chain. -/
theorem c8_norm_idempotent_invariant_witness :
    norm "Couro Bovino" = norm "Couro-Bovino" :=
  c8_norm_idempotent_invariant.2 "Couro Bovino" "Couro-Bovino"
    (Relation.EqvGen.symm _ _ (Relation.EqvGen.rel _ _
      (SimStep.hyphSpace "Couro".data "Bovino".data)))

end PrecoTenis
